import Mathlib

/-!
Shallow embedding of the OWLFetch rendering core (src/Python-version/main.py):
the escape-aware text metrics (`get_string_length`, `safe_truncate`), the
compositor and layout policy inside `Display.render`, and the QR error paths
of `LogoGenerator.generate_ascii_qr`, together with proofs of the specified
properties.  Strings are modelled as `List Char`; Python ints as `Int`/`Nat`.
-/

set_option maxRecDepth 4000

namespace OWLFetch

/-- The escape marker `\x1b` that begins every control span. -/
def esc : Char := '\x1b'

/-- Characters allowed inside a control span body: digits and `;`
(the regex character class `[0-9;]` of lines 295 and 298). -/
def isCode (c : Char) : Bool := c.isDigit || c == ';'

/-- Match the tail of a control span after `esc [`: zero or more code
characters followed by `m`; returns the remainder after the `m`.
Mirrors the regex `[0-9;]*m` (which matches iff the first non-code
character reached is exactly `m`). -/
def spanTail : List Char → Option (List Char)
  | [] => none
  | c :: rest => if c = 'm' then some rest else if isCode c then spanTail rest else none

/-- Match a full control span body following the escape marker: a `[`
then `spanTail`.  Mirrors the regex `\[[0-9;]*m`. -/
def matchSpan : List Char → Option (List Char)
  | [] => none
  | c :: rest => if c = '[' then spanTail rest else none

/-- Fuel-indexed ANSI stripper: at each character, drop a full control span
`esc [ codes m` when one starts here (the leftmost-match scan of
`re.sub(r'\x1b\[[0-9;]*m', '', text)` on line 295), otherwise keep the
character and move one position right.  The fuel only serves structural
recursion; it is irrelevant once it is at least the length of the input. -/
def stripF : Nat → List Char → List Char
  | 0, rest => rest
  | _ + 1, [] => []
  | fuel + 1, c :: rest =>
    if c = esc then
      match matchSpan rest with
      | some rest2 => stripF fuel rest2
      | none => c :: stripF fuel rest
    else c :: stripF fuel rest

/-- Embedding of `re.sub(r'\x1b\[[0-9;]*m', '', text)`: remove every control span. -/
def stripAnsi (text : List Char) : List Char := stripF text.length text

/-- Embedding of `Display.get_string_length` (line 294): the visible length of a line,
the length after stripping all control spans. -/
def get_string_length (text : List Char) : Nat := (stripAnsi text).length

/-- Split a character list at the first `m` (the `text.find('m', i)` of
line 308): returns the segment up to and including that `m`, and the rest. -/
def splitAtM : List Char → Option (List Char × List Char)
  | [] => none
  | c :: rest =>
    if c = 'm' then some ([c], rest)
    else
      match splitAtM rest with
      | some (seg, rest2) => some (c :: seg, rest2)
      | none => none

/-- Fuel-indexed core loop of `Display.safe_truncate` (lines 302-317):
walk the text while `visible_len < max_len - 3` (rendered over `Nat` as
`visible + 3 < maxLen`), copying whole `esc ... m` segments without
counting them and counting ordinary characters.  A lone escape with no
later `m` is skipped without being copied (the `else: i += 1` branch). -/
def truncF (maxLen : Nat) : Nat → List Char → Nat → List Char
  | 0, _, _ => []
  | _ + 1, [], _ => []
  | fuel + 1, c :: rest, visible =>
    if visible + 3 < maxLen then
      if c = esc then
        match splitAtM rest with
        | some (seg, rest2) => c :: (seg ++ truncF maxLen fuel rest2 visible)
        | none => truncF maxLen fuel rest visible
      else c :: truncF maxLen fuel rest (visible + 1)
    else []

/-- The truncation walk of `safe_truncate`, fuel fixed at the input length. -/
def truncGo (maxLen : Nat) (text : List Char) (visible : Nat) : List Char :=
  truncF maxLen text.length text visible

/-- The three-character ellipsis marker appended by `safe_truncate`. -/
def ellipsis : List Char := ['.', '.', '.']

/-- Embedding of `Display.safe_truncate` (lines 297-319): return the text unchanged when
its visible length fits, otherwise run the walk and append `"..."`. -/
def safe_truncate (text : List Char) (max_len : Nat) : List Char :=
  if get_string_length text ≤ max_len then text
  else truncGo max_len text 0 ++ ellipsis

/-! ### Styled lines (the spec's `StyledLine` data model)

A styled line is literal text interleaved with well-formed control spans;
flattening produces the raw character string handed to the metrics. -/

/-- One element of a styled line: a literal character or a control span
with the given code body (rendered as `esc [ code m`). -/
inductive Tok where
  | lit (c : Char)
  | span (code : List Char)
deriving DecidableEq

/-- Raw characters of a single token. -/
def Tok.flat : Tok → List Char
  | .lit c => [c]
  | .span code => esc :: '[' :: (code ++ ['m'])

/-- Raw characters of a styled line. -/
def flattenLine : List Tok → List Char
  | [] => []
  | t :: ts => t.flat ++ flattenLine ts

/-- The literal (visible) characters of a styled line, in order. -/
def litChars : List Tok → List Char
  | [] => []
  | .lit c :: ts => c :: litChars ts
  | .span _ :: ts => litChars ts

/-- Well-formedness of a token: a literal is not the escape marker, and a
span body consists of code characters only. -/
def Tok.wfB : Tok → Bool
  | .lit c => c != esc
  | .span code => code.all isCode

/-- Well-formedness of a styled line. -/
def WFline (ts : List Tok) : Bool := ts.all Tok.wfB

/-- Token-level image of the truncation walk: copy tokens while the
literal budget `visible + 3 < maxLen` lasts, counting only literals. -/
def truncToks (maxLen : Nat) : List Tok → Nat → List Tok
  | [], _ => []
  | .lit c :: ts, visible =>
    if visible + 3 < maxLen then .lit c :: truncToks maxLen ts (visible + 1) else []
  | .span code :: ts, visible =>
    if visible + 3 < maxLen then .span code :: truncToks maxLen ts visible else []

/-- The reset control span `\x1b[0m` (`Colors.NC`, line 28). -/
def resetSpan : List Char := [esc, '[', '0', 'm']

/-- Decidable test: does the line contain the reset span as a factor? -/
def containsReset : List Char → Bool
  | [] => false
  | c :: rest => ((c :: rest).take 4 == resetSpan) || containsReset rest

/-- Decidable test: does the line end in the reset span? -/
def hasResetSuffix (l : List Char) : Bool := (l.reverse.take 4).reverse == resetSpan

/-! ### Basic facts about the span matchers -/

theorem spanTail_length {l r : List Char} (h : spanTail l = some r) : r.length < l.length := by
  induction l with
  | nil => simp [spanTail] at h
  | cons c rest ih =>
    rw [spanTail] at h
    split_ifs at h with h1 h2
    · simp only [Option.some.injEq] at h
      subst h
      exact Nat.lt_succ_self _
    · exact Nat.lt_trans (ih h) (Nat.lt_succ_self _)

theorem matchSpan_length {l r : List Char} (h : matchSpan l = some r) : r.length < l.length := by
  cases l with
  | nil => simp [matchSpan] at h
  | cons c rest =>
    rw [matchSpan] at h
    split_ifs at h with h1
    exact Nat.lt_trans (spanTail_length h) (Nat.lt_succ_self _)

theorem splitAtM_length {l seg rest2 : List Char} (h : splitAtM l = some (seg, rest2)) :
    rest2.length < l.length := by
  induction l generalizing seg rest2 with
  | nil => simp [splitAtM] at h
  | cons c rest ih =>
    rw [splitAtM] at h
    split_ifs at h with h1
    · simp only [Option.some.injEq, Prod.mk.injEq] at h
      rw [← h.2]
      exact Nat.lt_succ_self _
    · cases heq : splitAtM rest with
      | none => rw [heq] at h; simp at h
      | some p =>
        obtain ⟨s, r2⟩ := p
        rw [heq] at h
        simp only [Option.some.injEq, Prod.mk.injEq] at h
        rw [← h.2]
        exact Nat.lt_trans (ih heq) (Nat.lt_succ_self _)

/-- The split `splitAtM` finds exactly the first `m`. -/
theorem splitAtM_of_no_m {l : List Char} (hl : ∀ c ∈ l, c ≠ 'm') (r : List Char) :
    splitAtM (l ++ 'm' :: r) = some (l ++ ['m'], r) := by
  induction l with
  | nil => simp [splitAtM]
  | cons c l' ih =>
    have hc : c ≠ 'm' := hl c (List.mem_cons_self c l')
    rw [List.cons_append, splitAtM, if_neg hc,
      ih (fun x hx => hl x (List.mem_cons_of_mem c hx))]
    simp

/-- The matcher `spanTail` consumes a well-formed code body up to its closing `m`. -/
theorem spanTail_of_codes {code : List Char} (h : ∀ c ∈ code, isCode c = true)
    (r : List Char) : spanTail (code ++ 'm' :: r) = some r := by
  induction code with
  | nil => simp [spanTail]
  | cons c code' ih =>
    have hcode : isCode c = true := h c (List.mem_cons_self c code')
    have hc : c ≠ 'm' := by
      intro hcm
      rw [hcm] at hcode
      simp [isCode] at hcode
    rw [List.cons_append, spanTail, if_neg hc, if_pos hcode,
      ih (fun x hx => h x (List.mem_cons_of_mem c hx))]

/-- A code character is never `m`. -/
theorem isCode_ne_m {c : Char} (h : isCode c = true) : c ≠ 'm' := by
  intro hcm
  rw [hcm] at h
  simp [isCode] at h

/-! ### Fuel irrelevance and one-step unfolding -/

theorem stripF_fuel :
    ∀ (fuel fuel' : Nat) (l : List Char), l.length ≤ fuel → l.length ≤ fuel' →
      stripF fuel l = stripF fuel' l := by
  intro fuel
  induction fuel with
  | zero =>
    intro fuel' l h h'
    cases l with
    | nil => cases fuel' <;> rfl
    | cons c rest => simp at h
  | succ f ih =>
    intro fuel' l h h'
    cases l with
    | nil => cases fuel' <;> rfl
    | cons c rest =>
      cases fuel' with
      | zero => simp at h'
      | succ f' =>
        simp only [List.length_cons] at h h'
        simp only [stripF]
        by_cases hc : c = esc
        · rw [if_pos hc, if_pos hc]
          cases heq : matchSpan rest with
          | some rest2 =>
            have hlen := matchSpan_length heq
            exact ih f' rest2 (by omega) (by omega)
          | none =>
            rw [ih f' rest (by omega) (by omega)]
        · rw [if_neg hc, if_neg hc, ih f' rest (by omega) (by omega)]

theorem stripAnsi_nil : stripAnsi [] = [] := rfl

theorem stripAnsi_cons (c : Char) (rest : List Char) :
    stripAnsi (c :: rest) =
      if c = esc then
        match matchSpan rest with
        | some rest2 => stripAnsi rest2
        | none => c :: stripAnsi rest
      else c :: stripAnsi rest := by
  show stripF (rest.length + 1) (c :: rest) = _
  simp only [stripF]
  by_cases hc : c = esc
  · rw [if_pos hc, if_pos hc]
    cases heq : matchSpan rest with
    | some rest2 =>
      have hlen := matchSpan_length heq
      exact stripF_fuel rest.length rest2.length rest2 (by omega) le_rfl
    | none => rfl
  · rw [if_neg hc, if_neg hc]
    rfl

theorem truncF_fuel (m : Nat) :
    ∀ (fuel fuel' : Nat) (text : List Char) (v : Nat),
      text.length ≤ fuel → text.length ≤ fuel' →
      truncF m fuel text v = truncF m fuel' text v := by
  intro fuel
  induction fuel with
  | zero =>
    intro fuel' text v h h'
    cases text with
    | nil => cases fuel' <;> rfl
    | cons c rest => simp at h
  | succ f ih =>
    intro fuel' text v h h'
    cases text with
    | nil => cases fuel' <;> rfl
    | cons c rest =>
      cases fuel' with
      | zero => simp at h'
      | succ f' =>
        simp only [List.length_cons] at h h'
        simp only [truncF]
        by_cases hv : v + 3 < m
        · rw [if_pos hv, if_pos hv]
          by_cases hc : c = esc
          · rw [if_pos hc, if_pos hc]
            cases heq : splitAtM rest with
            | some p =>
              obtain ⟨seg, rest2⟩ := p
              have hlen := splitAtM_length heq
              exact congrArg (fun x => c :: (seg ++ x)) (ih f' rest2 v (by omega) (by omega))
            | none =>
              exact ih f' rest v (by omega) (by omega)
          · rw [if_neg hc, if_neg hc, ih f' rest (v + 1) (by omega) (by omega)]
        · rw [if_neg hv, if_neg hv]

theorem truncGo_nil (m v : Nat) : truncGo m [] v = [] := rfl

theorem truncGo_cons (m : Nat) (c : Char) (rest : List Char) (v : Nat) :
    truncGo m (c :: rest) v =
      if v + 3 < m then
        if c = esc then
          match splitAtM rest with
          | some (seg, rest2) => c :: (seg ++ truncGo m rest2 v)
          | none => truncGo m rest v
        else c :: truncGo m rest (v + 1)
      else [] := by
  show truncF m (rest.length + 1) (c :: rest) v = _
  simp only [truncF]
  by_cases hv : v + 3 < m
  · rw [if_pos hv, if_pos hv]
    by_cases hc : c = esc
    · rw [if_pos hc, if_pos hc]
      cases heq : splitAtM rest with
      | some p =>
        obtain ⟨seg, rest2⟩ := p
        have hlen := splitAtM_length heq
        exact congrArg (fun x => c :: (seg ++ x))
          (truncF_fuel m rest.length rest2.length rest2 v (by omega) le_rfl)
      | none => rfl
    · rw [if_neg hc, if_neg hc]
      rfl
  · rw [if_neg hv, if_neg hv]

/-! ### Styled-line structure lemmas -/

theorem WFline_cons {t : Tok} {ts : List Tok} (h : WFline (t :: ts) = true) :
    t.wfB = true ∧ WFline ts = true := by
  simpa [WFline, List.all_cons, Bool.and_eq_true] using h

theorem WFline_append_left {pre suf : List Tok} (h : WFline (pre ++ suf) = true) :
    WFline pre = true := by
  simp only [WFline, List.all_append, Bool.and_eq_true] at h
  exact h.1

theorem WFline_append {pre suf : List Tok} (h1 : WFline pre = true)
    (h2 : WFline suf = true) : WFline (pre ++ suf) = true := by
  simp [WFline, List.all_append, h1.symm ▸ h1, h2]
  constructor
  · simpa [WFline] using h1
  · simpa [WFline] using h2

theorem flattenLine_append (a b : List Tok) :
    flattenLine (a ++ b) = flattenLine a ++ flattenLine b := by
  induction a with
  | nil => rfl
  | cons t ts ih => simp [flattenLine, ih, List.append_assoc]

theorem litChars_append (a b : List Tok) :
    litChars (a ++ b) = litChars a ++ litChars b := by
  induction a with
  | nil => rfl
  | cons t ts ih =>
    cases t with
    | lit c => simp [litChars, ih]
    | span code => simp [litChars, ih]

/-- Stripping a string with no escape marker keeps every character. -/
theorem stripAnsi_of_no_esc {l : List Char} (h : ∀ c ∈ l, c ≠ esc) :
    stripAnsi l = l := by
  induction l with
  | nil => rfl
  | cons c rest ih =>
    rw [stripAnsi_cons, if_neg (h c (List.mem_cons_self c rest)),
      ih (fun x hx => h x (List.mem_cons_of_mem c hx))]

/-- Stripping a string that starts with a well-formed control span drops it. -/
theorem stripAnsi_span_cons {code : List Char} (hcode : ∀ c ∈ code, isCode c = true)
    (r : List Char) : stripAnsi (esc :: '[' :: (code ++ 'm' :: r)) = stripAnsi r := by
  rw [stripAnsi_cons, if_pos rfl]
  have hms : matchSpan ('[' :: (code ++ 'm' :: r)) = some r := by
    rw [matchSpan, if_pos rfl]
    exact spanTail_of_codes hcode r
  rw [hms]

/-- The truncation walk copies a leading well-formed control span verbatim,
without counting it, while budget remains. -/
theorem truncGo_span_cons (m : Nat) {code : List Char}
    (hcode : ∀ c ∈ code, isCode c = true) (r : List Char) {v : Nat} (hv : v + 3 < m) :
    truncGo m (esc :: '[' :: (code ++ 'm' :: r)) v
      = esc :: '[' :: (code ++ 'm' :: truncGo m r v) := by
  rw [truncGo_cons, if_pos hv, if_pos rfl]
  have hsplit : splitAtM ('[' :: (code ++ 'm' :: r)) = some ('[' :: (code ++ ['m']), r) := by
    have h2 : ∀ c ∈ '[' :: code, c ≠ 'm' := by
      intro x hx
      rcases List.mem_cons.mp hx with hx | hx
      · subst hx
        decide
      · exact isCode_ne_m (hcode x hx)
    have := splitAtM_of_no_m h2 r
    simpa [List.append_assoc] using this
  rw [hsplit]
  show esc :: (('[' :: (code ++ ['m'])) ++ truncGo m r v) = _
  simp [List.append_assoc]

/-- Stripping the flattening of a well-formed styled line (followed by any
remainder) removes exactly its control spans. -/
theorem stripAnsi_flatten_append {ts : List Tok} (h : WFline ts = true)
    (l : List Char) : stripAnsi (flattenLine ts ++ l) = litChars ts ++ stripAnsi l := by
  induction ts with
  | nil => rfl
  | cons t ts ih =>
    obtain ⟨ht, hts⟩ := WFline_cons h
    cases t with
    | lit c =>
      have hc : c ≠ esc := by simpa [Tok.wfB] using ht
      show stripAnsi (c :: (flattenLine ts ++ l)) = c :: (litChars ts ++ stripAnsi l)
      rw [stripAnsi_cons, if_neg hc, ih hts]
    | span code =>
      have hcode : ∀ c ∈ code, isCode c = true := by
        simpa [Tok.wfB, List.all_eq_true] using ht
      have hflat : flattenLine (Tok.span code :: ts) ++ l
          = esc :: '[' :: (code ++ 'm' :: (flattenLine ts ++ l)) := by
        simp [flattenLine, Tok.flat, List.append_assoc]
      rw [hflat, stripAnsi_span_cons hcode, litChars]
      exact ih hts

/-- Visible length of a well-formed styled line: exactly its literal text. -/
theorem stripAnsi_flatten {ts : List Tok} (h : WFline ts = true) :
    stripAnsi (flattenLine ts) = litChars ts := by
  have := stripAnsi_flatten_append h []
  simpa [stripAnsi_nil] using this

/-- The character-level truncation walk acts on a well-formed styled line
exactly as the token-level walk `truncToks`. -/
theorem truncGo_flatten (m : Nat) {ts : List Tok} (h : WFline ts = true) (v : Nat) :
    truncGo m (flattenLine ts) v = flattenLine (truncToks m ts v) := by
  induction ts generalizing v with
  | nil => rfl
  | cons t ts ih =>
    obtain ⟨ht, hts⟩ := WFline_cons h
    cases t with
    | lit c =>
      have hc : c ≠ esc := by simpa [Tok.wfB] using ht
      show truncGo m (c :: flattenLine ts) v = flattenLine (truncToks m (.lit c :: ts) v)
      rw [truncGo_cons]
      by_cases hv : v + 3 < m
      · rw [if_pos hv, if_neg hc, ih hts (v + 1)]
        simp [truncToks, if_pos hv, flattenLine, Tok.flat]
      · rw [if_neg hv]
        simp [truncToks, if_neg hv, flattenLine]
    | span code =>
      have hcode : ∀ c ∈ code, isCode c = true := by
        simpa [Tok.wfB, List.all_eq_true] using ht
      have hflat : flattenLine (Tok.span code :: ts)
          = esc :: '[' :: (code ++ 'm' :: flattenLine ts) := by
        simp [flattenLine, Tok.flat, List.append_assoc]
      rw [hflat]
      by_cases hv : v + 3 < m
      · rw [truncGo_span_cons m hcode _ hv, ih hts v]
        have hrhs : flattenLine (truncToks m (Tok.span code :: ts) v)
            = esc :: '[' :: (code ++ 'm' :: flattenLine (truncToks m ts v)) := by
          rw [truncToks, if_pos hv]
          simp [flattenLine, Tok.flat, List.append_assoc]
        rw [hrhs]
      · rw [truncGo_cons, if_neg hv, truncToks, if_neg hv]
        rfl

/-- The token-level walk returns an initial segment of the styled line. -/
theorem truncToks_ex_suffix (m : Nat) (ts : List Tok) (v : Nat) :
    ∃ suf, ts = truncToks m ts v ++ suf := by
  induction ts generalizing v with
  | nil => exact ⟨[], rfl⟩
  | cons t ts ih =>
    cases t with
    | lit c =>
      by_cases hv : v + 3 < m
      · obtain ⟨suf, hsuf⟩ := ih (v + 1)
        exact ⟨suf, by rw [truncToks, if_pos hv, List.cons_append, ← hsuf]⟩
      · exact ⟨.lit c :: ts, by rw [truncToks, if_neg hv, List.nil_append]⟩
    | span code =>
      by_cases hv : v + 3 < m
      · obtain ⟨suf, hsuf⟩ := ih v
        exact ⟨suf, by rw [truncToks, if_pos hv, List.cons_append, ← hsuf]⟩
      · exact ⟨.span code :: ts, by rw [truncToks, if_neg hv, List.nil_append]⟩

/-- The walk copies at most `maxLen - 3 - visible` literal characters. -/
theorem truncToks_lit_le (m : Nat) (ts : List Tok) (v : Nat) :
    (litChars (truncToks m ts v)).length ≤ m - 3 - v := by
  induction ts generalizing v with
  | nil => simp [truncToks, litChars]
  | cons t ts ih =>
    cases t with
    | lit c =>
      by_cases hv : v + 3 < m
      · rw [truncToks, if_pos hv]
        have := ih (v + 1)
        simp only [litChars, List.length_cons]
        omega
      · rw [truncToks, if_neg hv]
        simp [litChars]
    | span code =>
      by_cases hv : v + 3 < m
      · rw [truncToks, if_pos hv]
        have := ih v
        simpa [litChars] using this
      · rw [truncToks, if_neg hv]
        simp [litChars]

/-- With a budget of at most 3 columns the walk copies nothing at all. -/
theorem truncToks_small {m : Nat} (hm : m ≤ 3) (ts : List Tok) (v : Nat) :
    truncToks m ts v = [] := by
  cases ts with
  | nil => rfl
  | cons t ts =>
    cases t with
    | lit c => rw [truncToks, if_neg (by omega)]
    | span code => rw [truncToks, if_neg (by omega)]

/-- With a budget of at most 3 columns the character walk copies nothing,
for arbitrary (even ill-formed) input text. -/
theorem truncGo_small {m : Nat} (hm : m ≤ 3) (text : List Char) (v : Nat) :
    truncGo m text v = [] := by
  cases text with
  | nil => rfl
  | cons c rest => rw [truncGo_cons, if_neg (by omega)]

/-! ### Color constants (class `Colors` / `Theme`, lines 14-34) -/

/-- Constant `Colors.RED` = `\x1b[0;31m`. -/
def colorRed : List Char := "\x1b[0;31m".toList

/-- Constant `Colors.NC` = `\x1b[0m`, the reset. -/
def colorNC : List Char := "\x1b[0m".toList

/-- Constant `Theme.SECONDARY` = `Colors.LIGHT_GRAY` = `\x1b[0;37m`. -/
def themeSecondary : List Char := "\x1b[0;37m".toList

/-- Constant `Theme.ACCENT` = `Colors.LIGHT_BLUE` = `\x1b[1;34m`. -/
def themeAccent : List Char := "\x1b[1;34m".toList

/-! ### The QR logo generator (`LogoGenerator.generate_ascii_qr`, lines 256-281)

The `qrcode` library is an external collaborator; its outcome is the input of
the embedded function: a boolean matrix on success, or one of the two caught
failure kinds (`except ImportError` on line 277, `except Exception` on 280). -/

/-- Outcome of the external QR matrix generation. -/
inductive QrOutcome where
  | ok (matrix : List (List Bool))
  | importError
  | genError (msg : List Char)

/-- One matrix cell rendered as on line 273. -/
def qrCell (b : Bool) : List Char :=
  if b then themeAccent ++ "██".toList ++ colorNC else "  ".toList

/-- One matrix row rendered by the inner loop of lines 270-274. -/
def qrRow (row : List Bool) : List Char :=
  (row.map qrCell).foldl (fun a b => a ++ b) []

/-- Embedding of `generate_ascii_qr`: render the matrix, or substitute in-block error
lines — two lines for a missing library, one line for any other failure. -/
def generate_ascii_qr : QrOutcome → List (List Char)
  | .ok matrix => matrix.map qrRow
  | .importError =>
      [colorRed ++ "Error: qrcode library not installed".toList ++ colorNC,
       themeSecondary ++ "Install with: pip install qrcode[pil]".toList ++ colorNC]
  | .genError msg =>
      [colorRed ++ "Error generating QR code: ".toList ++ msg ++ colorNC]

/-! ### Layout policy (lines 374-385) -/

/-- The three logo variants of the spec's `LayoutDecision`. -/
inductive Variant where
  | compact
  | full
  | qrcode
deriving DecidableEq

/-- The logo choice of lines 374-378: `if ascii_qr_url:` (Python truthiness,
so `None` and the empty string both fall through), else compact below 80
columns, else full. -/
def chooseVariant (ascii_qr_url : Option (List Char)) (term_cols : Int) : Variant :=
  if (match ascii_qr_url with | some u => !u.isEmpty | none => false) then .qrcode
  else if term_cols < 80 then .compact
  else .full

/-- Embedding of `max_logo_width` (line 380): the maximum visible length over the logo
lines, 0 for an empty block. -/
def maxLogoWidth (logo_lines : List (List Char)) : Nat :=
  match logo_lines with
  | [] => 0
  | _ :: _ => (logo_lines.map get_string_length).foldl max 0

/-- Embedding of `max_text_length` (lines 381-385): terminal width minus logo width minus
the fixed padding 4, floored at 30. -/
def maxTextLength (term_cols : Int) (logo_width : Nat) : Int :=
  if term_cols - logo_width - 4 < 30 then 30 else term_cols - logo_width - 4

/-! ### The compositor (lines 389-414) -/

/-- The left cell of a side-by-side row that has a logo line: the line plus
`max_logo_width - current_width + padding` spaces (lines 401-403, 407). -/
def padCell (maxW : Nat) (l : List Char) : List Char :=
  l ++ List.replicate ((maxW - get_string_length l + 4 : Int)).toNat ' '

/-- One composed row (loop body, lines 399-412): logo line padded to the
common width when present, otherwise `max_logo_width + padding` spaces,
followed by the info line when present. -/
def composeRow (maxW : Nat) (logoLine infoLine : Option (List Char)) : List Char :=
  (match logoLine with
   | some l => padCell maxW l
   | none => List.replicate (maxW + 4) ' ') ++ infoLine.getD []

/-- The side-by-side frame body: `max(len(logo_lines), len(info_lines))`
rows (lines 396-412). -/
def composeFrame (logo_lines info_lines : List (List Char)) : List (List Char) :=
  (List.range (max logo_lines.length info_lines.length)).map
    (fun i => composeRow (maxLogoWidth logo_lines) logo_lines[i]? info_lines[i]?)

/-- The rows printed by `Display.render` after the blocks are built
(lines 389-414): narrow mode below 60 columns stacks the info block between
two blank rows and ignores the logo; otherwise the side-by-side frame is
bracketed by blank rows. -/
def renderRows (term_cols : Int) (logo_lines info_lines : List (List Char)) :
    List (List Char) :=
  if term_cols < 60 then [] :: (info_lines ++ [[]])
  else [] :: (composeFrame logo_lines info_lines ++ [[]])

/-! ### Compositor helper lemmas -/

theorem le_foldl_max (xs : List Nat) : ∀ a : Nat, a ≤ xs.foldl max a := by
  induction xs with
  | nil => intro a; exact le_rfl
  | cons b xs ih =>
    intro a
    exact le_trans (le_max_left a b) (ih (max a b))

theorem mem_le_foldl_max {x : Nat} {xs : List Nat} (h : x ∈ xs) :
    ∀ a : Nat, x ≤ xs.foldl max a := by
  induction xs with
  | nil => exact absurd h (List.not_mem_nil x)
  | cons b xs ih =>
    intro a
    rcases List.mem_cons.mp h with hx | hx
    · subst hx
      exact le_trans (le_max_right a x) (le_foldl_max xs (max a x))
    · exact ih hx (max a b)

/-- Every line of a block is at most the block's width. -/
theorem width_le_maxLogoWidth {l : List Char} {logo : List (List Char)}
    (h : l ∈ logo) : get_string_length l ≤ maxLogoWidth logo := by
  cases logo with
  | nil => exact absurd h (List.not_mem_nil l)
  | cons x xs =>
    exact mem_le_foldl_max (List.mem_map_of_mem get_string_length h) 0

/-- Spaces are escape-free, so their visible length is their length. -/
theorem get_string_length_replicate_space (k : Nat) :
    get_string_length (List.replicate k ' ') = k := by
  rw [get_string_length, stripAnsi_of_no_esc, List.length_replicate]
  intro c hc
  rw [List.eq_of_mem_replicate hc]
  decide

/-! ### The boolean reset-span tests agree with their factor/suffix meaning -/

theorem hasResetSuffix_iff (l : List Char) :
    hasResetSuffix l = true ↔ ∃ p, l = p ++ resetSpan := by
  constructor
  · intro h
    rw [hasResetSuffix, beq_iff_eq] at h
    refine ⟨(l.reverse.drop 4).reverse, ?_⟩
    calc l = l.reverse.reverse := (List.reverse_reverse l).symm
    _ = (l.reverse.take 4 ++ l.reverse.drop 4).reverse := by rw [List.take_append_drop]
    _ = (l.reverse.drop 4).reverse ++ (l.reverse.take 4).reverse := by
          rw [List.reverse_append]
    _ = (l.reverse.drop 4).reverse ++ resetSpan := by rw [h]
  · rintro ⟨p, rfl⟩
    rw [hasResetSuffix, beq_iff_eq, List.reverse_append]
    have htake : (resetSpan.reverse ++ p.reverse).take 4 = resetSpan.reverse :=
      List.take_left' (by rfl)
    rw [htake, List.reverse_reverse]

theorem containsReset_iff (l : List Char) :
    containsReset l = true ↔ ∃ p s, l = p ++ resetSpan ++ s := by
  constructor
  · intro h
    induction l with
    | nil => simp [containsReset] at h
    | cons c rest ih =>
      rw [containsReset, Bool.or_eq_true] at h
      rcases h with h | h
      · rw [beq_iff_eq] at h
        refine ⟨[], (c :: rest).drop 4, ?_⟩
        conv_lhs => rw [← List.take_append_drop 4 (c :: rest)]
        rw [h]
        rfl
      · obtain ⟨p, s, hp⟩ := ih h
        exact ⟨c :: p, s, by rw [List.cons_append, List.cons_append, ← hp]⟩
  · rintro ⟨p, s, rfl⟩
    induction p with
    | nil =>
      show containsReset (esc :: '[' :: '0' :: 'm' :: s) = true
      rw [containsReset, Bool.or_eq_true]
      exact Or.inl rfl
    | cons c p ih =>
      show containsReset (c :: (p ++ resetSpan ++ s)) = true
      rw [containsReset, Bool.or_eq_true]
      exact Or.inr ih

/-- Anything followed by the ellipsis cannot end in the reset span
(the last characters differ: `.` versus `m`). -/
theorem hasResetSuffix_append_ellipsis (x : List Char) :
    hasResetSuffix (x ++ ellipsis) = false := by
  rw [Bool.eq_false_iff]
  intro h
  obtain ⟨p, hp⟩ := (hasResetSuffix_iff _).mp h
  have hrev := congrArg List.reverse hp
  rw [List.reverse_append, List.reverse_append] at hrev
  have h2 : ('.' :: '.' :: '.' :: x.reverse : List Char)
      = 'm' :: '0' :: '[' :: esc :: p.reverse := hrev
  simp at h2

/-- The ellipsis contains no escape marker. -/
theorem ellipsis_no_esc : ∀ c ∈ ellipsis, c ≠ esc := by decide

/-! ### Concrete styled lines used as witness inputs -/

/-- A red-styled line of eight literals terminated by the reset span. -/
def exC1 : List Tok := [Tok.span ['0', ';', '3', '1'], Tok.lit 'a', Tok.lit 'b', Tok.lit 'c',
  Tok.lit 'd', Tok.lit 'e', Tok.lit 'f', Tok.lit 'g', Tok.lit 'h', Tok.span ['0']]

/-- Its raw characters: `\x1b[0;31mabcdefgh\x1b[0m`. -/
def exC1line : List Char := flattenLine exC1

/-- An accent-styled line of seven literals terminated by the reset span. -/
def exC2 : List Tok := [Tok.span ['1', ';', '3', '4'], Tok.lit 'a', Tok.lit 'b', Tok.lit 'c',
  Tok.lit 'd', Tok.lit 'e', Tok.lit 'f', Tok.lit 'g', Tok.span ['0']]

/-- A gray-styled line of seven literals terminated by the reset span. -/
def exC7 : List Tok := [Tok.span ['0', ';', '3', '7'], Tok.lit 'w', Tok.lit 'x', Tok.lit 'y',
  Tok.lit 'z', Tok.lit 'u', Tok.lit 'v', Tok.lit 'p', Tok.span ['0']]

/-- A short styled line: accent span, two literals, reset span. -/
def exC8 : List Tok := [Tok.span ['1', ';', '3', '4'], Tok.lit 'h', Tok.lit 'i',
  Tok.span ['0']]

/-- A one-line styled logo block. -/
def exC6tss : List (List Tok) := [[Tok.span ['1', ';', '3', '4'], Tok.lit 'a',
  Tok.span ['0']]]

/-- A two-line info block. -/
def exC6info : List (List Char) := [['i'], ['j']]

/-! ### The claims -/

/-- Claim C3 is false on the code: a generic QR generation failure (the
`except Exception` branch, line 280-281) yields a one-line error block, not
the claimed two-line block; only the `ImportError` branch yields two lines. -/
theorem c3_counterexample :
    (generate_ascii_qr (QrOutcome.genError "version too large".toList)).length = 1
    ∧ (generate_ascii_qr (QrOutcome.genError "version too large".toList)).length ≠ 2 := by
  decide

/-- Claim C3 (amended): a missing-library failure yields a two-line in-block
message (error line plus remediation hint); any other generation failure
yields a one-line error message; in both cases the renderer still composes a
frame around the block instead of failing. -/
theorem c3_error_block (msg : List Char) (term_cols : Int) (info : List (List Char)) :
    (generate_ascii_qr QrOutcome.importError).length = 2
    ∧ (generate_ascii_qr (QrOutcome.genError msg)).length = 1
    ∧ renderRows term_cols (generate_ascii_qr (QrOutcome.genError msg)) info ≠ []
    ∧ renderRows term_cols (generate_ascii_qr QrOutcome.importError) info ≠ [] := by
  refine ⟨rfl, rfl, ?_, ?_⟩ <;>
  · rw [renderRows]
    split_ifs <;> simp

/-- Claim C4: the compositor's text column width (lines 380-385) is
`max(terminalColumns - logoWidth - 4, 30)` with padding fixed at 4, hence
never below 30; in particular `maxTextLength 50 10 = 36`. -/
theorem c4_text_column_width (term_cols : Int) (logo : List (List Char)) :
    maxTextLength term_cols (maxLogoWidth logo)
        = max (term_cols - (maxLogoWidth logo : Int) - 4) 30
    ∧ 30 ≤ maxTextLength term_cols (maxLogoWidth logo)
    ∧ maxTextLength 50 10 = 36 := by
  refine ⟨?_, ?_, by decide⟩
  · rw [maxTextLength, max_def]
    split_ifs <;> omega
  · rw [maxTextLength]
    split_ifs <;> omega

/-- Claim C5: below 60 columns the compositor uses narrow mode — the logo is
ignored entirely and the info lines are emitted one per row between one
leading and one trailing blank row; at 60 columns and above it composes the
side-by-side frame (so 59 is narrow and 60 is side-by-side). -/
theorem c5_narrow_mode_boundary (term_cols : Int) (logo logo2 info : List (List Char)) :
    (term_cols < 60 →
      renderRows term_cols logo info = [] :: (info ++ [[]])
      ∧ renderRows term_cols logo info = renderRows term_cols logo2 info)
    ∧ (60 ≤ term_cols →
      renderRows term_cols logo info = [] :: (composeFrame logo info ++ [[]])) := by
  constructor
  · intro h
    rw [renderRows, if_pos h, renderRows, if_pos h]
    exact ⟨rfl, rfl⟩
  · intro h
    rw [renderRows, if_neg (by omega)]

/-- Witness for C5, at the boundary widths 59 and 60. -/
theorem c5_witness :
    (renderRows 59 [['x']] [['i'], ['j']] = [] :: ([['i'], ['j']] ++ [[]])
      ∧ renderRows 59 [['x']] [['i'], ['j']] = renderRows 59 [['y'], ['z']] [['i'], ['j']])
    ∧ renderRows 60 [['x']] [['i'], ['j']]
        = [] :: (composeFrame [['x']] [['i'], ['j']] ++ [[]]) :=
  ⟨(c5_narrow_mode_boundary 59 [['x']] [['y'], ['z']] [['i'], ['j']]).1 (by decide),
   (c5_narrow_mode_boundary 60 [['x']] [['y'], ['z']] [['i'], ['j']]).2 (by decide)⟩

/-- Claim C8: the visible length of any well-formed styled line is exactly
the total length of its literal text, every control span counting zero; the
empty string measures 0. -/
theorem c8_visible_length_ignores_spans (ts : List Tok) (h : WFline ts = true) :
    get_string_length (flattenLine ts) = (litChars ts).length
    ∧ get_string_length [] = 0 :=
  ⟨by rw [get_string_length, stripAnsi_flatten h], rfl⟩

/-- Witness for C8 on a concrete styled line with two spans and two literals. -/
theorem c8_witness :
    get_string_length (flattenLine exC8) = (litChars exC8).length
    ∧ get_string_length [] = 0 :=
  c8_visible_length_ignores_spans exC8 (by decide)

/-- Claim C9 is false on the code: `if ascii_qr_url:` (line 374) uses Python
truthiness, so a present-but-empty payload falls through to the width-based
choice instead of forcing the qrcode variant. -/
theorem c9_counterexample :
    chooseVariant (some []) 100 ≠ Variant.qrcode
    ∧ chooseVariant (some []) 100 = Variant.full := by decide

/-- Claim C9 (amended): a present non-empty payload always selects the
qrcode variant regardless of width; with no payload, or an empty one, the
variant is compact exactly below 80 columns and full at 80 and above. -/
theorem c9_variant_choice (url : List Char) (term_cols : Int) :
    (url ≠ [] → chooseVariant (some url) term_cols = Variant.qrcode)
    ∧ chooseVariant none term_cols
        = (if term_cols < 80 then Variant.compact else Variant.full)
    ∧ chooseVariant (some []) term_cols
        = (if term_cols < 80 then Variant.compact else Variant.full) := by
  refine ⟨?_, rfl, rfl⟩
  intro hu
  cases url with
  | nil => exact absurd rfl hu
  | cons c cs => rfl

/-- Witness for C9 at a non-empty payload and at no payload, width 40. -/
theorem c9_witness :
    chooseVariant (some ['a']) 40 = Variant.qrcode
    ∧ chooseVariant none 40 = (if (40 : Int) < 80 then Variant.compact else Variant.full) :=
  ⟨(c9_variant_choice ['a'] 40).1 (by decide), (c9_variant_choice ['a'] 40).2.1⟩

/-- Claim C10: when the budget is at most 3 and the line overflows, the walk
copies nothing — no ordinary characters and no control spans — and the result
is exactly `"..."`, whose visible length 3 exceeds any budget below 3. -/
theorem c10_tiny_budget (text : List Char) (m : Nat) (hm : m ≤ 3)
    (hlong : m < get_string_length text) :
    safe_truncate text m = ellipsis
    ∧ get_string_length (safe_truncate text m) = 3
    ∧ (m < 3 → m < get_string_length (safe_truncate text m)) := by
  have h1 : safe_truncate text m = ellipsis := by
    rw [safe_truncate, if_neg (by omega), truncGo_small hm, List.nil_append]
  refine ⟨h1, by rw [h1]; decide, ?_⟩
  intro h3
  rw [h1]
  rw [show get_string_length ellipsis = 3 from by decide]
  exact h3

/-- Witness for C10 at `"abcdef"` with budget 2. -/
theorem c10_witness :
    safe_truncate "abcdef".toList 2 = ellipsis
    ∧ get_string_length (safe_truncate "abcdef".toList 2) = 3 :=
  ⟨(c10_tiny_budget "abcdef".toList 2 (by decide) (by decide)).1,
   (c10_tiny_budget "abcdef".toList 2 (by decide) (by decide)).2.1⟩

/-- Claim C1 is false on the code: `exC1line` contains (in fact ends in) the
reset span and its visible length 8 exceeds 5, yet its truncation ends in
the appended `"..."` (line 319), not in a reset span — the trailing reset is
dropped by the cut. -/
theorem c1_counterexample :
    containsReset exC1line = true
    ∧ 5 < get_string_length exC1line
    ∧ hasResetSuffix exC1line = true
    ∧ hasResetSuffix (safe_truncate exC1line 5) = false := by decide

/-- Claim C1 (amended): for every line whose visible length exceeds the
budget, the truncated line is the copied walk output followed by the
three-character ellipsis, so it ends in `"..."` and never in a reset control
span — truncation can leave a control span unterminated. -/
theorem c1_truncation_ends_in_ellipsis (text : List Char) (m : Nat)
    (h : m < get_string_length text) :
    safe_truncate text m = truncGo m text 0 ++ ellipsis
    ∧ hasResetSuffix (safe_truncate text m) = false := by
  have hres : safe_truncate text m = truncGo m text 0 ++ ellipsis := by
    rw [safe_truncate, if_neg (by omega)]
  refine ⟨hres, ?_⟩
  rw [hres]
  exact hasResetSuffix_append_ellipsis _

/-- Witness for the amended C1 at `"abcdefgh"` with budget 5. -/
theorem c1_witness :
    safe_truncate "abcdefgh".toList 5 = truncGo 5 "abcdefgh".toList 0 ++ ellipsis
    ∧ hasResetSuffix (safe_truncate "abcdefgh".toList 5) = false :=
  c1_truncation_ends_in_ellipsis "abcdefgh".toList 5 (by decide)

/-- Claim C2: for budgets of at least 3 and any well-formed styled line that
overflows, the truncation's visible length is at most the budget, and the
result is the flattening of an initial segment of the line's tokens followed
by the ellipsis — spans before the cut are kept whole and in order, and no
span is ever split. -/
theorem c2_truncate_guarantees (m : Nat) (ts : List Tok) (hm : 3 ≤ m)
    (hwf : WFline ts = true) (hlong : m < get_string_length (flattenLine ts)) :
    get_string_length (safe_truncate (flattenLine ts) m) ≤ m
    ∧ ∃ pre suf, ts = pre ++ suf
        ∧ safe_truncate (flattenLine ts) m = flattenLine pre ++ ellipsis := by
  have hres : safe_truncate (flattenLine ts) m
      = flattenLine (truncToks m ts 0) ++ ellipsis := by
    rw [safe_truncate, if_neg (by omega), truncGo_flatten m hwf 0]
  obtain ⟨suf, hsuf⟩ := truncToks_ex_suffix m ts 0
  have hwfpre : WFline (truncToks m ts 0) = true := WFline_append_left (hsuf ▸ hwf)
  constructor
  · rw [hres, get_string_length, stripAnsi_flatten_append hwfpre,
      stripAnsi_of_no_esc ellipsis_no_esc, List.length_append]
    have hlit := truncToks_lit_le m ts 0
    have hell : ellipsis.length = 3 := rfl
    omega
  · exact ⟨truncToks m ts 0, suf, hsuf, hres⟩

/-- Witness for C2 on a concrete styled line of visible length 7, budget 5. -/
theorem c2_witness :
    get_string_length (safe_truncate (flattenLine exC2) 5) ≤ 5 :=
  (c2_truncate_guarantees 5 exC2 (by decide) (by decide) (by decide)).1

/-- Claim C7: truncation is idempotent — truncating an overflowing
well-formed styled line twice gives the same result as truncating it once;
equivalently a line that already fits is returned unchanged. -/
theorem c7_truncate_idempotent (m : Nat) (ts : List Tok) (hwf : WFline ts = true)
    (hlong : m < get_string_length (flattenLine ts)) :
    safe_truncate (safe_truncate (flattenLine ts) m) m
        = safe_truncate (flattenLine ts) m
    ∧ ∀ l : List Char, get_string_length l ≤ m → safe_truncate l m = l := by
  have hfits : ∀ l : List Char, get_string_length l ≤ m → safe_truncate l m = l := by
    intro l hl
    rw [safe_truncate, if_pos hl]
  refine ⟨?_, hfits⟩
  have hres : safe_truncate (flattenLine ts) m
      = flattenLine (truncToks m ts 0) ++ ellipsis := by
    rw [safe_truncate, if_neg (by omega), truncGo_flatten m hwf 0]
  obtain ⟨suf, hsuf⟩ := truncToks_ex_suffix m ts 0
  have hwfpre : WFline (truncToks m ts 0) = true := WFline_append_left (hsuf ▸ hwf)
  have hlen : get_string_length (safe_truncate (flattenLine ts) m)
      = (litChars (truncToks m ts 0)).length + 3 := by
    rw [hres, get_string_length, stripAnsi_flatten_append hwfpre,
      stripAnsi_of_no_esc ellipsis_no_esc, List.length_append]
    rfl
  by_cases h3 : 3 ≤ m
  · apply hfits
    have hlit := truncToks_lit_le m ts 0
    omega
  · have hpre : truncToks m ts 0 = [] := truncToks_small (by omega) ts 0
    have hres2 : safe_truncate (flattenLine ts) m = ellipsis := by
      rw [hres, hpre]
      rfl
    rw [hres2, safe_truncate, if_neg (by rw [show get_string_length ellipsis = 3 from by decide]; omega),
      truncGo_small (by omega), List.nil_append]

/-- Witness for C7 on a concrete styled line of visible length 7, budget 5. -/
theorem c7_witness :
    safe_truncate (safe_truncate (flattenLine exC7) 5) 5
        = safe_truncate (flattenLine exC7) 5 :=
  (c7_truncate_idempotent 5 exC7 (by decide) (by decide)).1

/-- Claim C6: in side-by-side mode the frame body (between the bracketing
blank rows) has exactly `max(len(logoBlock), len(infoBlock))` rows; every
row is a left cell of visible width `logoWidth + 4` followed by that row's
info line (empty when absent), so the info text always starts at visible
column `logoWidth + 4` however short the row's logo line is; rows beyond
the logo block's end have a left cell of `logoWidth + 4` spaces. -/
theorem c6_side_by_side (term_cols : Int) (tss : List (List Tok))
    (info : List (List Char)) (hcols : 60 ≤ term_cols)
    (hwf : tss.all WFline = true) :
    renderRows term_cols (tss.map flattenLine) info
        = [] :: (composeFrame (tss.map flattenLine) info ++ [[]])
    ∧ (composeFrame (tss.map flattenLine) info).length = max tss.length info.length
    ∧ ∀ i, i < max tss.length info.length →
        ∃ left,
          (composeFrame (tss.map flattenLine) info)[i]? = some (left ++ info[i]?.getD [])
          ∧ get_string_length left = maxLogoWidth (tss.map flattenLine) + 4
          ∧ (tss.length ≤ i →
              left = List.replicate (maxLogoWidth (tss.map flattenLine) + 4) ' ') := by
  have hlenmap : (tss.map flattenLine).length = tss.length := List.length_map tss flattenLine
  refine ⟨?_, ?_, ?_⟩
  · rw [renderRows, if_neg (by omega)]
  · rw [composeFrame, List.length_map, List.length_range, hlenmap]
  · intro i hi
    have hin : i < max (tss.map flattenLine).length info.length := by
      rw [hlenmap]
      exact hi
    have hrow : (composeFrame (tss.map flattenLine) info)[i]?
        = some (composeRow (maxLogoWidth (tss.map flattenLine))
            (tss.map flattenLine)[i]? info[i]?) := by
      rw [composeFrame, List.getElem?_map, List.getElem?_range hin]
      rfl
    by_cases hcase : i < tss.length
    · have hmem : tss[i] ∈ tss := List.getElem_mem hcase
      have hwfts : WFline tss[i] = true := List.all_eq_true.mp hwf tss[i] hmem
      have hlogoi : (tss.map flattenLine)[i]? = some (flattenLine tss[i]) := by
        rw [List.getElem?_map, List.getElem?_eq_getElem hcase]
        rfl
      refine ⟨padCell (maxLogoWidth (tss.map flattenLine)) (flattenLine tss[i]),
        ?_, ?_, ?_⟩
      · rw [hrow, hlogoi]
        rfl
      · have hw : get_string_length (flattenLine tss[i])
            ≤ maxLogoWidth (tss.map flattenLine) :=
          width_le_maxLogoWidth (List.mem_map_of_mem flattenLine hmem)
        have hvis : get_string_length (flattenLine tss[i]) = (litChars tss[i]).length := by
          rw [get_string_length, stripAnsi_flatten hwfts]
        rw [padCell, get_string_length, stripAnsi_flatten_append hwfts,
          stripAnsi_of_no_esc (fun c hc => by rw [List.eq_of_mem_replicate hc]; decide),
          List.length_append, List.length_replicate]
        rw [get_string_length, stripAnsi_flatten hwfts] at hw
        omega
      · intro hge
        exact absurd hcase (by omega)
    · have hnone : (tss.map flattenLine)[i]? = none :=
        List.getElem?_eq_none_iff.mpr (by rw [hlenmap]; omega)
      refine ⟨List.replicate (maxLogoWidth (tss.map flattenLine) + 4) ' ',
        ?_, get_string_length_replicate_space _, fun _ => rfl⟩
      rw [hrow, hnone]
      rfl

/-- Witness for C6 on a one-line styled logo block and a two-line info block
at width 60. -/
theorem c6_witness :
    renderRows 60 (exC6tss.map flattenLine) exC6info
        = [] :: (composeFrame (exC6tss.map flattenLine) exC6info ++ [[]])
    ∧ (composeFrame (exC6tss.map flattenLine) exC6info).length
        = max exC6tss.length exC6info.length :=
  ⟨(c6_side_by_side 60 exC6tss exC6info (by decide) (by decide)).1,
   (c6_side_by_side 60 exC6tss exC6info (by decide) (by decide)).2.1⟩

end OWLFetch
